import Mathlib

/-!
Verification development for the `cache` package's LRU engine (`lru.go`).

The Go code keeps three pieces of mutable state behind one lock:
  * `items  : *list.List`                     -- doubly linked recency list of `*list.Element`
  * `lookup : map[interface{}]*list.Element`  -- key to element handle
  * `capacity, count : int`

We embed this with an explicit element heap: every `*list.Element` ever
pushed is identified by a numeric id (`nextId` is the allocator).  The
recency list `order` stores ids front-first; the `lookup` table is an
association list from keys to ids.  An element detached from the list by
`list.Remove` keeps existing in the heap (its id simply no longer occurs
in `order`), exactly as a detached `*list.Element` in Go keeps its
`Value` reachable through any map handle that still points at it.  All
in-place mutations of a `*LRUItem` through an element pointer become
point updates of the heap at that element's id; distinct elements never
share an item, so this is faithful.

Go's `interface{}`-typed `Value` field of `list.Element` is embedded as
`Payload`: the `item` alternative is a `*LRUItem`, and `corrupt` stands
for data of any other shape (which this package never stores; the
defensive `.(*LRUItem)` checks in the source test for it).  A failed
single-value type assertion or a nil dereference in Go is a panic; the
embedding marks such a path with an `Option`-`none` result (and comments
at each spot).
-/

namespace LRUCache

/-- The two error values of the package (`errors.go`):
`ELRUINVALTYPE` ("invalid item type") and `ELRUFATAL` ("fatal state"). -/
inductive CacheError where
  | ELRUINVALTYPE
  | ELRUFATAL
deriving DecidableEq, Repr

/-- `LRUItem`: key, value, access counter.  `key`/`value` are `Option`
because `evict` sets both fields to Go `nil`. -/
structure Entry (K V : Type) where
  key : Option K
  value : Option V
  count : Nat
deriving DecidableEq, Repr

/-- The `interface{}` payload of a `list.Element`: either a `*LRUItem`
or data of some other, unexpected shape. -/
inductive Payload (K V : Type) where
  | item (e : Entry K V)
  | corrupt
deriving DecidableEq, Repr

/-- The `LRU` struct.  `heap` is the store of all allocated list
elements (id to payload), `order` the recency list of `items` (ids,
head first), `lookup` the key-to-handle map, `capacity`/`count` the two
`int` fields, and `nextId` the element allocator. -/
structure LRU (K V : Type) where
  heap : List (Nat × Payload K V)
  order : List Nat
  lookup : List (K × Nat)
  capacity : Int
  count : Nat
  nextId : Nat
deriving DecidableEq, Repr

/-- `defaultCAPACITY = 16`. -/
def defaultCAPACITY : Int := 16

variable {K V : Type} [DecidableEq K]

/-- Lookup in the key-to-handle map (Go map indexing `lru.lookup[key]`). -/
def alookup : List (K × Nat) → K → Option Nat
  | [], _ => none
  | (k, id) :: rest, k' => if k' = k then some id else alookup rest k'

/-- Deletion from the key-to-handle map (Go `delete(lru.lookup, key)`).
The map never holds a duplicate key, so erasing the first binding is
exact. -/
def eraseKey : List (K × Nat) → K → List (K × Nat)
  | [], _ => []
  | (k, id) :: rest, k' => if k' = k then rest else (k, id) :: eraseKey rest k'

/-- Dereference an element id (`elem.Value`).  A dangling id yields
`corrupt`: no live `*list.Element` corresponds to it. -/
def heapFind : List (Nat × Payload K V) → Nat → Payload K V
  | [], _ => Payload.corrupt
  | (i, p) :: rest, id => if id = i then p else heapFind rest id

/-- In-place mutation of the item an element points at (writes through
the `*LRUItem` pointer held in `elem.Value`). -/
def heapUpdate : List (Nat × Payload K V) → Nat → (Payload K V → Payload K V) →
    List (Nat × Payload K V)
  | [], _, _ => []
  | (i, p) :: rest, id, f =>
    if i = id then (i, f p) :: heapUpdate rest id f
    else (i, p) :: heapUpdate rest id f

/-- `lru.items.MoveToFront(elem)`: a no-op when the element is no longer
in the list (`e.list != l`), otherwise unlink and relink at the front. -/
def moveToFront (ord : List Nat) (id : Nat) : List Nat :=
  if id ∈ ord then id :: ord.erase id else ord

/-- `evict`'s field clearing: `item.Key = nil; item.Value = nil`. -/
def clearF : Payload K V → Payload K V
  | Payload.item e => Payload.item { key := none, value := none, count := e.count }
  | Payload.corrupt => Payload.corrupt

/-- `set`'s update of an existing item: `item.Count += 1; item.Value = value`. -/
def touchF (v : V) : Payload K V → Payload K V
  | Payload.item e => Payload.item { e with count := e.count + 1, value := some v }
  | Payload.corrupt => Payload.corrupt

/-- `get`'s update of a found item: `item.Count++`. -/
def bumpF : Payload K V → Payload K V
  | Payload.item e => Payload.item { e with count := e.count + 1 }
  | Payload.corrupt => Payload.corrupt

/-- `NewLRU(capacity)`: store `capacity - 1`; if the stored value is
`<= 0`, replace it with `defaultCAPACITY`. -/
def NewLRU (capacity : Int) : LRU K V :=
  let cap0 : Int := capacity - 1
  { heap := []
    order := []
    lookup := []
    capacity := if cap0 ≤ 0 then defaultCAPACITY else cap0
    count := 0
    nextId := 0 }

/-- `evict`: pop the back element of the list, delete its key from the
lookup map, clear the item's key/value fields.  The `none`/`corrupt`
fallthroughs mark spots where Go panics (nil dereference of
`items.Back()`, resp. failed `.(*LRUItem)` assertion in `popBack`);
they are unreachable whenever `evict` is actually invoked by `set`
(the list is then non-empty and well-typed). -/
def LRU.evict (l : LRU K V) : LRU K V :=
  match l.order.getLast? with
  | none => l
  | some victim =>
    -- popBack: lru.items.Remove(lru.items.Back())
    let l1 : LRU K V := { l with order := l.order.dropLast }
    match heapFind l1.heap victim with
    | Payload.corrupt => l1
    | Payload.item e =>
      -- delete(lru.lookup, item.Key); a nil key deletes nothing
      let l2 : LRU K V := { l1 with lookup := match e.key with
                              | some k => eraseKey l1.lookup k
                              | none => l1.lookup }
      { l2 with heap := heapUpdate l2.heap victim clearF }

/-- `set(key, value)`: returns `(isNew, err, post-state)`.  Transcribed
line by line: count increment, length snapshot, lookup probe, the two
branches with their (identical) eviction trigger, and the `*LRUItem`
mutation applied through the element pointer after the possible
eviction, exactly as in the source. -/
def LRU.set (l : LRU K V) (key : K) (value : V) :
    Bool × Option CacheError × LRU K V :=
  -- lru.count++
  let l0 : LRU K V := { l with count := l.count + 1 }
  -- cnt := lru.items.Len()
  let cnt : Int := l0.order.length
  match alookup l0.lookup key with
  | none =>
    -- key absent: evict when cnt > capacity, then allocate and push front
    let l1 : LRU K V := if cnt > l0.capacity then l0.evict else l0
    let item : Entry K V := { key := some key, value := some value, count := l0.count }
    let l2 : LRU K V :=
      { l1 with
        heap := (l1.nextId, Payload.item item) :: l1.heap
        order := l1.nextId :: l1.order      -- elem = lru.items.PushFront(item)
        lookup := (key, l1.nextId) :: eraseKey l1.lookup key  -- lru.lookup[key] = elem
        nextId := l1.nextId + 1 }
    (true, none, l2)
  | some elem =>
    match heapFind l0.heap elem with
    | Payload.corrupt =>
      -- item, ok = elem.Value.(*LRUItem); !ok
      (false, some CacheError.ELRUINVALTYPE, l0)
    | Payload.item _ =>
      -- eviction trigger evaluated again on the update branch
      let l1 : LRU K V := if cnt > l0.capacity then l0.evict else l0
      -- item.Count += 1; item.Value = value (after the possible evict)
      let l2 : LRU K V := { l1 with heap := heapUpdate l1.heap elem (touchF value) }
      (false, none, { l2 with order := moveToFront l2.order elem })

/-- `get(key)`: returns `some (item, err, post-state)`, or `none` when
Go would panic: the source asserts `elem.Value.(*LRUItem)` without the
comma-ok form.  The `err` component is transcribed from the source's
dead `err` variable, which is never assigned: it is `none` on both
returns. -/
def LRU.get (l : LRU K V) (key : K) :
    Option (Option (Entry K V) × Option CacheError × LRU K V) :=
  -- lru.count++
  let l0 : LRU K V := { l with count := l.count + 1 }
  match alookup l0.lookup key with
  | none => some (none, none, l0)          -- goto ERROR: return nil, err (err is nil)
  | some elem =>
    match heapFind l0.heap elem with
    | Payload.corrupt => none              -- panic: failed type assertion
    | Payload.item e =>
      -- item.Count++; lru.items.MoveToFront(elem)
      let l1 : LRU K V := { l0 with heap := heapUpdate l0.heap elem bumpF }
      some (some { e with count := e.count + 1 }, none,
            { l1 with order := moveToFront l1.order elem })

/-- `readEntery(key)`: the raw lookup probe. -/
def LRU.readEntery (l : LRU K V) (key : K) : Option Nat :=
  alookup l.lookup key

/-- `read(key)`: returns `some (item or nil)`, or `none` when Go would
panic on the unchecked `elem.Value.(*LRUItem)` assertion. -/
def LRU.read (l : LRU K V) (key : K) : Option (Option (Entry K V)) :=
  match alookup l.lookup key with
  | none => some none
  | some elem =>
    match heapFind l.heap elem with
    | Payload.corrupt => none              -- panic: failed type assertion
    | Payload.item e => some (some e)

/-- `remove(key)`: probe the lookup map; if a handle exists, unlink the
element from the list (`lru.items.Remove`, a no-op when the element is
already detached) and return true.  Note: the source never deletes
`key` from `lru.lookup` (its TODO comment notwithstanding). -/
def LRU.remove (l : LRU K V) (key : K) : Bool × LRU K V :=
  match l.readEntery key with
  | none => (false, l)
  | some elem => (true, { l with order := l.order.erase elem })

/-- `reset`: `lru.items.Init()`, counter to 0, delete every lookup key.
The element heap models already-allocated nodes; dropping the list and
the map merely makes them unreachable. -/
def LRU.reset (l : LRU K V) : LRU K V :=
  { l with order := [], count := 0, lookup := [] }

/-- Public `Set`: lock, `set`, unlock. -/
def LRU.SetOp (l : LRU K V) (key : K) (value : V) :
    Bool × Option CacheError × LRU K V :=
  l.set key value

/-- Public `Get`: lock, `get`, unlock; extract `item.Value` when
`err == nil && item != nil`.  `none` marks the panic propagating. -/
def LRU.GetOp (l : LRU K V) (key : K) :
    Option (Option V × Option CacheError × LRU K V) :=
  match l.get key with
  | none => none
  | some (item, err, l1) =>
    match err, item with
    | none, some e => some (e.value, err, l1)
    | _, _ => some (none, err, l1)

/-- Public `Read`: lock, `read`, unlock; extract `item.Value` when the
item is non-nil.  The inner `read` performs no writes, so the engine
state after the call is the receiver itself; the first component is
`none` exactly when Go would panic. -/
def LRU.ReadOp (l : LRU K V) (key : K) : Option (Option V) × LRU K V :=
  (match l.read key with
   | none => none
   | some none => some none
   | some (some e) => some e.value, l)

/-- Public `Remove`: lock, `remove`, unlock. -/
def LRU.RemoveOp (l : LRU K V) (key : K) : Bool × LRU K V :=
  l.remove key

/-- Public `Purge`: lock, `reset`, unlock. -/
def LRU.Purge (l : LRU K V) : LRU K V :=
  l.reset

/-- Public `Len`: `lru.items.Len()`. -/
def LRU.Len (l : LRU K V) : Nat :=
  l.order.length

/-- A sequence of `Set` calls, used to state the capacity-fill claims. -/
def insertAll (kvs : List (K × V)) (l : LRU K V) : LRU K V :=
  kvs.foldl (fun s kv => (s.set kv.1 kv.2).2.2) l

/-- A sequence of `Read` calls (only the engine state is kept). -/
def readMany (l : LRU K V) (ks : List K) : LRU K V :=
  ks.foldl (fun s k => (s.ReadOp k).2) l

end LRUCache

namespace LRUCache

variable {K V : Type} [DecidableEq K]

/-! ### Association-list and heap lemmas -/

theorem alookup_append_left {xs ys : List (K × Nat)} {k : K} {id : Nat}
    (h : alookup xs k = some id) : alookup (xs ++ ys) k = some id := by
  induction xs with
  | nil => simp [alookup] at h
  | cons p rest ih =>
    obtain ⟨kk, ii⟩ := p
    simp only [alookup, List.cons_append] at h ⊢
    split at h
    · simpa [*] using h
    · simp only [*, if_false]
      exact ih h

theorem alookup_append_right {xs ys : List (K × Nat)} {k : K}
    (h : alookup xs k = none) : alookup (xs ++ ys) k = alookup ys k := by
  induction xs with
  | nil => simp
  | cons p rest ih =>
    obtain ⟨kk, ii⟩ := p
    simp only [alookup, List.cons_append] at h ⊢
    split at h
    · exact absurd h (by simp)
    · simp only [*, if_false]
      exact ih h

theorem alookup_eq_none {m : List (K × Nat)} {k : K} :
    alookup m k = none ↔ k ∉ m.map Prod.fst := by
  induction m with
  | nil => simp [alookup]
  | cons p rest ih =>
    obtain ⟨kk, ii⟩ := p
    by_cases h : k = kk <;> simp [alookup, h, ih]

theorem mem_of_alookup_some {m : List (K × Nat)} {k : K} {id : Nat}
    (h : alookup m k = some id) : k ∈ m.map Prod.fst := by
  by_contra hc
  rw [← alookup_eq_none] at hc
  rw [h] at hc
  exact Option.noConfusion hc

theorem alookup_eraseKey_ne {m : List (K × Nat)} {k k' : K} (hne : k' ≠ k) :
    alookup (eraseKey m k) k' = alookup m k' := by
  induction m with
  | nil => simp [eraseKey]
  | cons p rest ih =>
    obtain ⟨kk, ii⟩ := p
    by_cases h : k = kk
    · subst h
      simp [eraseKey, alookup, hne]
    · by_cases h2 : k' = kk <;> simp [eraseKey, alookup, h, h2, ih]

theorem map_fst_eraseKey_sublist (m : List (K × Nat)) (k : K) :
    List.Sublist ((eraseKey m k).map Prod.fst) (m.map Prod.fst) := by
  induction m with
  | nil => simp [eraseKey]
  | cons p rest ih =>
    obtain ⟨kk, ii⟩ := p
    by_cases h : k = kk
    · simp only [eraseKey, h, if_pos rfl, List.map_cons]
      exact (List.sublist_cons_self _ _)
    · simp only [eraseKey, if_neg h, List.map_cons]
      exact ih.cons₂ kk

theorem nodup_eraseKey {m : List (K × Nat)} {k : K}
    (h : (m.map Prod.fst).Nodup) : ((eraseKey m k).map Prod.fst).Nodup :=
  h.sublist (map_fst_eraseKey_sublist m k)

theorem eraseKey_of_not_mem {m : List (K × Nat)} {k : K}
    (h : k ∉ m.map Prod.fst) : eraseKey m k = m := by
  induction m with
  | nil => rfl
  | cons p rest ih =>
    obtain ⟨kk, ii⟩ := p
    simp only [List.map_cons, List.mem_cons] at h
    push_neg at h
    simp [eraseKey, h.1, ih h.2]

theorem alookup_eraseKey_self {m : List (K × Nat)} {k : K}
    (h : (m.map Prod.fst).Nodup) : alookup (eraseKey m k) k = none := by
  induction m with
  | nil => rfl
  | cons p rest ih =>
    obtain ⟨kk, ii⟩ := p
    simp only [List.map_cons, List.nodup_cons] at h
    by_cases hk : k = kk
    · subst hk
      simp only [eraseKey, if_pos rfl]
      exact alookup_eq_none.2 h.1
    · simp [eraseKey, hk, alookup, ih h.2]

theorem alookup_eraseKey_some {m : List (K × Nat)} {k k' : K} {id : Nat}
    (hnd : (m.map Prod.fst).Nodup)
    (h : alookup (eraseKey m k) k' = some id) : alookup m k' = some id := by
  by_cases hk : k' = k
  · subst hk
    rw [alookup_eraseKey_self hnd] at h
    exact absurd h (by simp)
  · rwa [alookup_eraseKey_ne hk] at h

theorem heapFind_append_left {xs ys : List (Nat × Payload K V)} {id : Nat}
    {e : Entry K V} (h : heapFind xs id = Payload.item e) :
    heapFind (xs ++ ys) id = Payload.item e := by
  induction xs with
  | nil => simp [heapFind] at h
  | cons p rest ih =>
    obtain ⟨ii, pp⟩ := p
    simp only [heapFind, List.cons_append] at h ⊢
    split at h
    · simpa [*] using h
    · simp only [*, if_false]
      exact ih h

theorem heapFind_append_right {xs ys : List (Nat × Payload K V)} {id : Nat}
    (h : id ∉ xs.map Prod.fst) : heapFind (xs ++ ys) id = heapFind ys id := by
  induction xs with
  | nil => simp
  | cons p rest ih =>
    obtain ⟨ii, pp⟩ := p
    simp only [List.map_cons, List.mem_cons] at h
    push_neg at h
    simp only [heapFind, List.cons_append, if_neg h.1]
    exact ih h.2

theorem heapFind_update_ne {h : List (Nat × Payload K V)} {id id' : Nat}
    {f : Payload K V → Payload K V} (hne : id' ≠ id) :
    heapFind (heapUpdate h id f) id' = heapFind h id' := by
  induction h with
  | nil => rfl
  | cons p rest ih =>
    obtain ⟨ii, pp⟩ := p
    by_cases hi : ii = id
    · subst hi
      have h2 : ¬ id' = ii := hne
      simp [heapUpdate, heapFind, h2, ih]
    · by_cases h2 : id' = ii <;> simp [heapUpdate, heapFind, hi, h2, ih]

theorem heapFind_update_self {h : List (Nat × Payload K V)} {id : Nat}
    {f : Payload K V → Payload K V} (hf : f Payload.corrupt = Payload.corrupt) :
    heapFind (heapUpdate h id f) id = f (heapFind h id) := by
  induction h with
  | nil => simp [heapUpdate, heapFind, hf]
  | cons p rest ih =>
    obtain ⟨ii, pp⟩ := p
    by_cases hi : ii = id
    · subst hi
      simp [heapUpdate, heapFind]
    · have h2 : ¬ id = ii := fun hh => hi hh.symm
      simp [heapUpdate, heapFind, hi, h2, ih]

/-! ### moveToFront lemmas -/

theorem length_moveToFront (ord : List Nat) (id : Nat) :
    (moveToFront ord id).length = ord.length := by
  unfold moveToFront
  split
  · next h =>
    have h1 : (ord.erase id).length = ord.length - 1 := List.length_erase_of_mem h
    have h2 : 0 < ord.length := List.length_pos_of_mem h
    simp only [List.length_cons, h1]
    omega
  · rfl

theorem head_moveToFront {ord : List Nat} {id : Nat} (h : id ∈ ord) :
    (moveToFront ord id).head? = some id := by
  simp [moveToFront, h]

theorem nodup_moveToFront {ord : List Nat} {id : Nat} (h : ord.Nodup) :
    (moveToFront ord id).Nodup := by
  unfold moveToFront
  split
  · exact List.nodup_cons.2 ⟨h.not_mem_erase, h.erase id⟩
  · exact h

theorem mem_moveToFront {ord : List Nat} {id a : Nat} :
    a ∈ moveToFront ord id ↔ a ∈ ord := by
  unfold moveToFront
  split
  · next h =>
    simp only [List.mem_cons]
    constructor
    · rintro (rfl | hm)
      · exact h
      · exact List.mem_of_mem_erase hm
    · intro ha
      by_cases heq : a = id
      · exact Or.inl heq
      · exact Or.inr ((List.mem_erase_of_ne heq).2 ha)
  · exact Iff.rfl

theorem moveToFront_of_not_mem {ord : List Nat} {id : Nat} (h : id ∉ ord) :
    moveToFront ord id = ord := by
  simp [moveToFront, h]

end LRUCache

namespace LRUCache

variable {K V : Type} [DecidableEq K]

/-! ### Reachability and the structural invariant -/

/-- States reachable through the public operations from `NewLRU c`.
`Read` and `Len` perform no writes (their embeddings return the
receiver unchanged), so they need no step constructor.  A `Get` step
exists whenever the call returns (it panics on no reachable state, as
proved below). -/
inductive ReachableC (c : Int) : LRU K V → Prop where
  | init : ReachableC c (NewLRU c)
  | step_set (l : LRU K V) (k : K) (v : V) :
      ReachableC c l → ReachableC c (l.SetOp k v).2.2
  | step_get (l : LRU K V) (k : K) (r : Option V × Option CacheError × LRU K V) :
      ReachableC c l → l.GetOp k = some r → ReachableC c r.2.2
  | step_remove (l : LRU K V) (k : K) :
      ReachableC c l → ReachableC c (l.RemoveOp k).2
  | step_purge (l : LRU K V) :
      ReachableC c l → ReachableC c l.Purge

/-- A state of the engine, for some construction capacity. -/
def Reachable (l : LRU K V) : Prop :=
  ∃ c, ReachableC c l

/-- Structural invariant of every reachable state.  Note that it does
NOT require every lookup handle to be in `order`: `remove` leaves
stale handles behind (see the C2/C3 analyses). -/
structure WF (l : LRU K V) : Prop where
  nodup : l.order.Nodup
  nodupKeys : (l.lookup.map Prod.fst).Nodup
  capPos : 1 ≤ l.capacity
  lenBound : (l.order.length : Int) ≤ l.capacity + 1
  orderFresh : ∀ id ∈ l.order, id < l.nextId
  lookFresh : ∀ k id, alookup l.lookup k = some id → id < l.nextId
  handles : ∀ k id, alookup l.lookup k = some id →
      ∃ e, heapFind l.heap id = Payload.item e
  orderKeys : ∀ id ∈ l.order, ∃ k e, heapFind l.heap id = Payload.item e ∧
      e.key = some k ∧ alookup l.lookup k = some id

/-! ### evict: characterization and invariant preservation -/

theorem evict_spec {l : LRU K V} (hw : WF l) (hne : l.order ≠ []) :
    ∃ victim kvic evic,
      l.order.getLast? = some victim ∧
      heapFind l.heap victim = Payload.item evic ∧
      evic.key = some kvic ∧
      alookup l.lookup kvic = some victim ∧
      l.evict = { l with order := l.order.dropLast,
                         lookup := eraseKey l.lookup kvic,
                         heap := heapUpdate l.heap victim clearF } := by
  have hlast : l.order.getLast? = some (l.order.getLast hne) :=
    List.getLast?_eq_getLast l.order hne
  have hmem : l.order.getLast hne ∈ l.order := List.getLast_mem hne
  obtain ⟨k, e, hfind, hkey, hlook⟩ := hw.orderKeys _ hmem
  refine ⟨_, k, e, hlast, hfind, hkey, hlook, ?_⟩
  unfold LRU.evict
  rw [hlast]
  simp only [hfind, hkey]

theorem getLast_not_mem_dropLast {l : List Nat} (hn : l.Nodup) (hne : l ≠ []) :
    l.getLast hne ∉ l.dropLast := by
  have hsplit : l.dropLast ++ [l.getLast hne] = l := List.dropLast_append_getLast hne
  rw [← hsplit] at hn
  rcases List.nodup_append.1 hn with ⟨-, -, hdisj⟩
  intro hmem
  exact hdisj hmem (List.mem_singleton_self _)

theorem wf_evict {l : LRU K V} (hw : WF l) (hne : l.order ≠ []) :
    WF l.evict ∧ (l.evict).order = l.order.dropLast ∧
    (l.evict).capacity = l.capacity ∧ (l.evict).nextId = l.nextId := by
  obtain ⟨victim, kvic, evic, hlast, hfind, hkey, hlook, heq⟩ := evict_spec hw hne
  rw [heq]
  have hlen : 0 < l.order.length := List.length_pos.2 hne
  refine ⟨⟨?_, ?_, ?_, ?_, ?_, ?_, ?_, ?_⟩, rfl, rfl, rfl⟩
  · exact hw.nodup.sublist (List.dropLast_sublist l.order)
  · exact nodup_eraseKey hw.nodupKeys
  · exact hw.capPos
  · have h1 := hw.lenBound
    simp only [List.length_dropLast]
    omega
  · intro id hid
    exact hw.orderFresh id ((List.dropLast_sublist l.order).subset hid)
  · intro k0 id0 h0
    exact hw.lookFresh k0 id0 (alookup_eraseKey_some hw.nodupKeys h0)
  · intro k0 id0 h0
    obtain ⟨e0, he0⟩ := hw.handles k0 id0 (alookup_eraseKey_some hw.nodupKeys h0)
    by_cases hv : id0 = victim
    · subst hv
      refine ⟨{ key := none, value := none, count := e0.count }, ?_⟩
      rw [heapFind_update_self rfl, he0]
      rfl
    · exact ⟨e0, by rw [heapFind_update_ne hv, he0]⟩
  · intro id hid
    have hidmem : id ∈ l.order := (List.dropLast_sublist l.order).subset hid
    obtain ⟨k0, e0, hf0, hk0, hl0⟩ := hw.orderKeys id hidmem
    have hvictim : victim = l.order.getLast hne := by
      have := List.getLast?_eq_getLast l.order hne
      rw [this] at hlast
      exact (Option.some_injective _ hlast.symm)
    have hidne : id ≠ victim := by
      intro hcontra
      subst hcontra
      rw [hvictim] at hid
      exact getLast_not_mem_dropLast hw.nodup hne hid
    have hkne : k0 ≠ kvic := by
      intro hcontra
      subst hcontra
      rw [hl0] at hlook
      exact hidne (Option.some_injective _ hlook)
    refine ⟨k0, e0, ?_, hk0, ?_⟩
    · rw [heapFind_update_ne hidne, hf0]
    · rw [alookup_eraseKey_ne hkne]
      exact hl0

end LRUCache

namespace LRUCache

variable {K V : Type} [DecidableEq K]

/-! ### Invariant preservation, operation by operation -/

/-- `WF` ignores the `count` field. -/
theorem wf_recount {hp : List (Nat × Payload K V)} {ord : List Nat}
    {lk : List (K × Nat)} {cap : Int} {cnt nid : Nat} (cnt' : Nat)
    (hw : WF (LRU.mk hp ord lk cap cnt nid)) :
    WF (LRU.mk hp ord lk cap cnt' nid) :=
  ⟨hw.nodup, hw.nodupKeys, hw.capPos, hw.lenBound, hw.orderFresh,
   hw.lookFresh, hw.handles, hw.orderKeys⟩

/-- Pushing a fresh element to the front (the insert branch of `set`)
preserves the invariant, provided there is room for it. -/
theorem wf_push {hp : List (Nat × Payload K V)} {ord : List Nat}
    {lk : List (K × Nat)} {cap : Int} {cnt nid : Nat}
    (hw : WF (LRU.mk hp ord lk cap cnt nid))
    (k : K) (v : V) (c ic : Nat)
    (hk : k ∉ lk.map Prod.fst)
    (hlen : (ord.length : Int) ≤ cap) :
    WF (LRU.mk ((nid, Payload.item ⟨some k, some v, ic⟩) :: hp)
        (nid :: ord) ((k, nid) :: eraseKey lk k) cap c (nid + 1)) := by
  have herase : eraseKey lk k = lk := eraseKey_of_not_mem hk
  rw [herase]
  refine ⟨?_, ?_, hw.capPos, ?_, ?_, ?_, ?_, ?_⟩
  · exact List.nodup_cons.2
      ⟨fun hmem => absurd (hw.orderFresh nid hmem) (Nat.lt_irrefl nid), hw.nodup⟩
  · exact List.nodup_cons.2 ⟨hk, hw.nodupKeys⟩
  · show ((nid :: ord).length : Int) ≤ cap + 1
    simp only [List.length_cons]
    push_cast
    omega
  · intro id hid
    show id < nid + 1
    rcases List.mem_cons.1 hid with rfl | hmem
    · exact Nat.lt_succ_self _
    · exact Nat.lt_succ_of_lt (hw.orderFresh id hmem)
  · intro k0 id0 h0
    show id0 < nid + 1
    simp only [alookup] at h0
    split at h0
    · injection h0 with h0
      omega
    · exact Nat.lt_succ_of_lt (hw.lookFresh k0 id0 h0)
  · intro k0 id0 h0
    simp only [alookup] at h0
    split at h0
    · refine ⟨⟨some k, some v, ic⟩, ?_⟩
      injection h0 with h0
      simp [heapFind, h0.symm]
    · have hlt : id0 < nid := hw.lookFresh k0 id0 h0
      obtain ⟨e0, he0⟩ := hw.handles k0 id0 h0
      refine ⟨e0, ?_⟩
      have hne : ¬ id0 = nid := by omega
      simp [heapFind, hne, he0]
  · intro id hid
    rcases List.mem_cons.1 hid with rfl | hmem
    · refine ⟨k, ⟨some k, some v, ic⟩, by simp [heapFind], rfl, by simp [alookup]⟩
    · obtain ⟨k0, e0, hf0, hk0, hl0⟩ := hw.orderKeys id hmem
      have hne1 : ¬ id = nid := by
        have h3 : id < nid := hw.orderFresh id hmem
        omega
      have hne2 : ¬ k0 = k := by
        intro hcontra
        subst hcontra
        exact hk (mem_of_alookup_some hl0)
      exact ⟨k0, e0, by simp [heapFind, hne1, hf0], hk0, by simp [alookup, hne2, hl0]⟩

/-- Mutating one item in place and move-to-front (the update branch of
`set`, and `get` on a hit) preserves the invariant, for any update that
keeps the payload a well-typed item with the same key. -/
theorem wf_touch {hp : List (Nat × Payload K V)} {ord : List Nat}
    {lk : List (K × Nat)} {cap : Int} {cnt nid : Nat}
    (hw : WF (LRU.mk hp ord lk cap cnt nid))
    (id : Nat) (c : Nat) (f : Payload K V → Payload K V)
    (hfc : f Payload.corrupt = Payload.corrupt)
    (hfi : ∀ e, ∃ e', f (Payload.item e) = Payload.item e' ∧ e'.key = e.key) :
    WF (LRU.mk (heapUpdate hp id f) (moveToFront ord id) lk cap c nid) := by
  refine ⟨nodup_moveToFront hw.nodup, hw.nodupKeys, hw.capPos, ?_, ?_,
    hw.lookFresh, ?_, ?_⟩
  · simp only [length_moveToFront]
    exact hw.lenBound
  · intro id0 hid0
    exact hw.orderFresh id0 (mem_moveToFront.1 hid0)
  · intro k0 id0 h0
    obtain ⟨e0, he0⟩ := hw.handles k0 id0 h0
    by_cases hcase : id0 = id
    · subst hcase
      obtain ⟨e1, he1, -⟩ := hfi e0
      exact ⟨e1, by rw [heapFind_update_self hfc, he0, he1]⟩
    · exact ⟨e0, by rw [heapFind_update_ne hcase, he0]⟩
  · intro id0 hid0
    obtain ⟨k0, e0, hf0, hk0, hl0⟩ := hw.orderKeys id0 (mem_moveToFront.1 hid0)
    by_cases hcase : id0 = id
    · subst hcase
      obtain ⟨e1, he1, hkey1⟩ := hfi e0
      exact ⟨k0, e1, by rw [heapFind_update_self hfc, hf0, he1], hkey1.trans hk0, hl0⟩
    · exact ⟨k0, e0, by rw [heapFind_update_ne hcase, hf0], hk0, hl0⟩

theorem touchF_corrupt (v : V) : touchF v (Payload.corrupt : Payload K V) = Payload.corrupt := rfl

theorem touchF_item (v : V) : ∀ e : Entry K V,
    ∃ e', touchF v (Payload.item e) = Payload.item e' ∧ e'.key = e.key :=
  fun e => ⟨{ e with count := e.count + 1, value := some v }, rfl, rfl⟩

theorem bumpF_corrupt : bumpF (Payload.corrupt : Payload K V) = Payload.corrupt := rfl

theorem bumpF_item : ∀ e : Entry K V,
    ∃ e', bumpF (Payload.item e) = Payload.item e' ∧ e'.key = e.key :=
  fun e => ⟨{ e with count := e.count + 1 }, rfl, rfl⟩

end LRUCache

namespace LRUCache

variable {K V : Type} [DecidableEq K]

theorem wf_set {l : LRU K V} (hw : WF l) (k : K) (v : V) :
    WF (l.set k v).2.2 ∧ (l.set k v).2.2.capacity = l.capacity := by
  obtain ⟨hp, ord, lk, cap, cnt, nid⟩ := l
  have hw0 : WF (LRU.mk hp ord lk cap (cnt + 1) nid) := wf_recount (cnt + 1) hw
  have hcap : (1 : Int) ≤ cap := hw.capPos
  cases hprobe : alookup lk k with
  | none =>
    have hk : k ∉ lk.map Prod.fst := alookup_eq_none.1 hprobe
    by_cases hgt : ((ord.length : Int) > cap)
    · have hne : ord ≠ [] := by
        intro hcontra
        rw [hcontra] at hgt
        simp at hgt
        omega
      obtain ⟨victim, kvic, evic, hlast, hfind, hkey, hlook, heq⟩ := evict_spec hw0 hne
      have hwe := (wf_evict hw0 hne).1
      rw [heq] at hwe
      simp only [LRU.set, hprobe, if_pos hgt, heq]
      refine ⟨?_, trivial⟩
      have hk2 : k ∉ (eraseKey lk kvic).map Prod.fst :=
        fun hmem => hk ((map_fst_eraseKey_sublist lk kvic).subset hmem)
      have hlen2 : ((ord.dropLast).length : Int) ≤ cap := by
        have h1 : (ord.length : Int) ≤ cap + 1 := hw.lenBound
        have h2 : 0 < ord.length := List.length_pos.2 hne
        simp only [List.length_dropLast]
        omega
      exact wf_push hwe k v (cnt + 1) (cnt + 1) hk2 hlen2
    · simp only [LRU.set, hprobe, if_neg hgt]
      refine ⟨?_, trivial⟩
      have hlen : ((ord.length : Int)) ≤ cap := by omega
      exact wf_push hw0 k v (cnt + 1) (cnt + 1) hk hlen
  | some elem =>
    obtain ⟨e, he⟩ := hw.handles k elem hprobe
    by_cases hgt : ((ord.length : Int) > cap)
    · have hne : ord ≠ [] := by
        intro hcontra
        rw [hcontra] at hgt
        simp at hgt
        omega
      obtain ⟨victim, kvic, evic, hlast, hfind, hkey, hlook, heq⟩ := evict_spec hw0 hne
      have hwe := (wf_evict hw0 hne).1
      rw [heq] at hwe
      simp only [LRU.set, hprobe, he, if_pos hgt, heq]
      exact ⟨wf_touch hwe elem (cnt + 1) (touchF v) (touchF_corrupt v) (touchF_item v), trivial⟩
    · simp only [LRU.set, hprobe, he, if_neg hgt]
      exact ⟨wf_touch hw0 elem (cnt + 1) (touchF v) (touchF_corrupt v) (touchF_item v), trivial⟩

theorem wf_get {l : LRU K V} (hw : WF l) (k : K)
    {r : Option (Entry K V) × Option CacheError × LRU K V}
    (hr : l.get k = some r) :
    WF r.2.2 ∧ r.2.2.capacity = l.capacity := by
  obtain ⟨hp, ord, lk, cap, cnt, nid⟩ := l
  cases hprobe : alookup lk k with
  | none =>
    simp only [LRU.get, hprobe] at hr
    obtain rfl := Option.some.inj hr
    exact ⟨wf_recount (cnt + 1) hw, rfl⟩
  | some elem =>
    obtain ⟨e, he⟩ := hw.handles k elem hprobe
    simp only [LRU.get, hprobe, he] at hr
    obtain rfl := Option.some.inj hr
    exact ⟨wf_touch (wf_recount (cnt + 1) hw) elem (cnt + 1) bumpF bumpF_corrupt bumpF_item, rfl⟩

theorem wf_GetOp {l : LRU K V} (hw : WF l) (k : K)
    {r : Option V × Option CacheError × LRU K V}
    (hr : l.GetOp k = some r) :
    WF r.2.2 ∧ r.2.2.capacity = l.capacity := by
  unfold LRU.GetOp at hr
  cases hg : l.get k with
  | none =>
    rw [hg] at hr
    exact absurd hr (by simp)
  | some t =>
    obtain ⟨item, err, l1⟩ := t
    rw [hg] at hr
    have hmain := wf_get hw k hg
    cases err <;> cases item <;>
      simp only [] at hr <;> (obtain rfl := Option.some.inj hr) <;> exact hmain

theorem wf_remove {l : LRU K V} (hw : WF l) (k : K) :
    WF (l.remove k).2 ∧ (l.remove k).2.capacity = l.capacity := by
  obtain ⟨hp, ord, lk, cap, cnt, nid⟩ := l
  cases hprobe : alookup lk k with
  | none =>
    simp only [LRU.remove, LRU.readEntery, hprobe]
    exact ⟨hw, trivial⟩
  | some elem =>
    simp only [LRU.remove, LRU.readEntery, hprobe]
    refine ⟨⟨hw.nodup.erase elem, hw.nodupKeys, hw.capPos, ?_, ?_, hw.lookFresh,
      hw.handles, ?_⟩, trivial⟩
    · show (((ord.erase elem).length : Int)) ≤ cap + 1
      have h1 : (ord.erase elem).length ≤ ord.length := (ord.erase_sublist elem).length_le
      have h2 : (ord.length : Int) ≤ cap + 1 := hw.lenBound
      omega
    · intro id hid
      exact hw.orderFresh id ((ord.erase_sublist elem).subset hid)
    · intro id hid
      exact hw.orderKeys id ((ord.erase_sublist elem).subset hid)

theorem wf_purge {l : LRU K V} (hw : WF l) :
    WF l.Purge ∧ l.Purge.capacity = l.capacity := by
  obtain ⟨hp, ord, lk, cap, cnt, nid⟩ := l
  have hcap : (1 : Int) ≤ cap := hw.capPos
  refine ⟨⟨List.nodup_nil, List.nodup_nil, hw.capPos, ?_, ?_, ?_, ?_, ?_⟩, rfl⟩
  · show ((([] : List Nat).length : Int)) ≤ cap + 1
    simp
    omega
  · intro id hid
    exact absurd hid (List.not_mem_nil id)
  · intro k0 id0 h0
    simp [alookup] at h0
  · intro k0 id0 h0
    simp [alookup] at h0
  · intro id hid
    exact absurd hid (List.not_mem_nil id)

theorem wf_new (c : Int) : WF (NewLRU c : LRU K V) := by
  have hcap : (1 : Int) ≤ (NewLRU c : LRU K V).capacity := by
    show (1 : Int) ≤ (if c - 1 ≤ 0 then defaultCAPACITY else c - 1)
    unfold defaultCAPACITY
    split <;> omega
  refine ⟨List.nodup_nil, List.nodup_nil, hcap, ?_, ?_, ?_, ?_, ?_⟩
  · show ((([] : List Nat).length : Int)) ≤ (NewLRU c : LRU K V).capacity + 1
    simp
    omega
  · intro id hid
    exact absurd hid (List.not_mem_nil id)
  · intro k0 id0 h0
    simp [alookup] at h0
  · intro k0 id0 h0
    simp [alookup] at h0
  · intro id hid
    exact absurd hid (List.not_mem_nil id)

/-- Every reachable state satisfies the structural invariant, and the
capacity field never changes after construction. -/
theorem wf_reachable {c : Int} {l : LRU K V} (h : ReachableC c l) :
    WF l ∧ l.capacity = (NewLRU c : LRU K V).capacity := by
  induction h with
  | init => exact ⟨wf_new c, rfl⟩
  | step_set l k v hprev ih =>
    have hstep := wf_set ih.1 k v
    exact ⟨hstep.1, hstep.2.trans ih.2⟩
  | step_get l k r hprev hr ih =>
    have hstep := wf_GetOp ih.1 k hr
    exact ⟨hstep.1, hstep.2.trans ih.2⟩
  | step_remove l k hprev ih =>
    have hstep := wf_remove ih.1 k
    exact ⟨hstep.1, hstep.2.trans ih.2⟩
  | step_purge l hprev ih =>
    have hstep := wf_purge ih.1
    exact ⟨hstep.1, hstep.2.trans ih.2⟩

theorem wf_of_reachable {l : LRU K V} (h : Reachable l) : WF l := by
  obtain ⟨c, hc⟩ := h
  exact (wf_reachable hc).1

end LRUCache

namespace LRUCache

variable {K V : Type} [DecidableEq K]

theorem mem_of_getLast?_eq {l : List Nat} {a : Nat} (h : l.getLast? = some a) :
    a ∈ l := by
  cases l with
  | nil => simp at h
  | cons b t =>
    have hne : b :: t ≠ [] := by simp
    rw [List.getLast?_eq_getLast _ hne] at h
    have hmem := List.getLast_mem hne
    rwa [Option.some.inj h] at hmem

/-! ### Concrete traces used by the counterexample and witness theorems -/

/-- One insert into a fresh capacity-3 engine. -/
def trace1 : LRU Nat Nat := ((NewLRU 3).set 0 5).2.2

/-- ... then `Remove 0`. -/
def trace1r : LRU Nat Nat := (trace1.remove 0).2

/-- Two inserts into a fresh capacity-3 engine. -/
def trace2 : LRU Nat Nat := (((NewLRU 3).set 0 10).2.2.set 1 11).2.2

/-- ... then `Remove 0` (leaves a stale handle for key 0). -/
def trace2r : LRU Nat Nat := (trace2.remove 0).2

/-- A full capacity-2 engine: keys 0 (older) and 1 (newer). -/
def traceFull2 : LRU Nat Nat := (((NewLRU 2).set 0 1).2.2.set 1 2).2.2

theorem trace1_reachable : ReachableC 3 trace1 :=
  ReachableC.step_set _ 0 5 ReachableC.init

theorem trace2_reachable : ReachableC 3 trace2 :=
  ReachableC.step_set _ 1 11 (ReachableC.step_set _ 0 10 ReachableC.init)

theorem trace2r_reachable : ReachableC 3 trace2r :=
  ReachableC.step_remove _ 0 trace2_reachable

theorem traceFull2_reachable : ReachableC 2 traceFull2 :=
  ReachableC.step_set _ 1 2 (ReachableC.step_set _ 0 1 ReachableC.init)

/-! ### C7 -/

/-- C7: `New(capacity)` yields an empty Ordered Index, empty Lookup
Table, touch counter 0 (hence `Len() = 0` and every key reads as
absent); the effective slot budget is `capacity - 1` when that reduced
value is positive and the default 16 otherwise — in particular every
requested capacity `c ≤ 0`, and also `c = 1`, gives capacity 16. -/
theorem newLRU_contract (c : Int) :
    (NewLRU c : LRU K V).order = [] ∧
    (NewLRU c : LRU K V).lookup = [] ∧
    (NewLRU c : LRU K V).count = 0 ∧
    (NewLRU c : LRU K V).Len = 0 ∧
    (∀ k : K, ((NewLRU c : LRU K V).ReadOp k).1 = some none) ∧
    (0 < c - 1 → (NewLRU c : LRU K V).capacity = c - 1) ∧
    (c - 1 ≤ 0 → (NewLRU c : LRU K V).capacity = 16) ∧
    (c ≤ 0 → (NewLRU c : LRU K V).capacity = 16) ∧
    (c = 1 → (NewLRU c : LRU K V).capacity = 16) := by
  have hcap : (NewLRU c : LRU K V).capacity =
      (if c - 1 ≤ 0 then defaultCAPACITY else c - 1) := rfl
  refine ⟨rfl, rfl, rfl, rfl, fun k => rfl, ?_, ?_, ?_, ?_⟩
  · intro h
    rw [hcap, if_neg (by omega)]
  · intro h
    rw [hcap, if_pos (by omega)]
    rfl
  · intro h
    rw [hcap, if_pos (by omega)]
    rfl
  · intro h
    rw [hcap, if_pos (by omega)]
    rfl

theorem newLRU_contract_witness :
    ((1 : Int) ≤ 0 ∨ (1 : Int) = 1) ∧
    (NewLRU 1 : LRU Nat Nat).capacity = 16 ∧
    (NewLRU 1 : LRU Nat Nat).Len = 0 ∧
    (NewLRU (-4) : LRU Nat Nat).capacity = 16 ∧
    (NewLRU 10 : LRU Nat Nat).capacity = 9 := by
  refine ⟨Or.inr rfl, (newLRU_contract 1).2.2.2.2.2.2.2.2 rfl,
    (newLRU_contract 1).2.2.2.1,
    (newLRU_contract (-4)).2.2.2.2.2.2.2.1 (by omega),
    ?_⟩
  have h := (@newLRU_contract Nat Nat instDecidableEqNat 10).2.2.2.2.2.1 (by omega)
  omega

/-! ### C8 -/

/-- C8: `Purge()` empties the Ordered Index and the Lookup Table
(afterwards `Len() = 0` and every key is absent), resets the global
touch counter to 0, and leaves the capacity unchanged. -/
theorem purge_contract (l : LRU K V) :
    l.Purge.order = [] ∧
    l.Purge.lookup = [] ∧
    l.Purge.count = 0 ∧
    l.Purge.Len = 0 ∧
    l.Purge.capacity = l.capacity ∧
    (∀ k : K, (l.Purge.ReadOp k).1 = some none) :=
  ⟨rfl, rfl, rfl, rfl, rfl, fun _ => rfl⟩

/-! ### C2: the bijection invariant fails after Remove (code bug) -/

/-- C2 is violated by the code: on the reachable state
`NewLRU 3; Set 0 5; Remove 0` the Ordered Index is empty while the
Lookup Table still maps key 0 to the removed element — the lengths
differ (0 vs 1) and the handle is stale (its target is not in the
list). -/
theorem remove_breaks_bijection :
    trace1r.order.length = 0 ∧
    trace1r.lookup.length = 1 ∧
    alookup trace1r.lookup 0 = some 0 ∧
    0 ∉ trace1r.order := by decide

/-! ### C3: Remove does not delete from the Lookup Table (code bug) -/

/-- C3 is violated by the code: after `NewLRU 3; Set 0 5`, `Remove 0`
returns true and drops `Len()` to 0, but the key is still in the
Lookup Table, a subsequent `Read 0` still returns the value 5, and a
second `Remove 0` returns true again while removing nothing. -/
theorem remove_leaves_lookup_entry :
    (trace1.remove 0).1 = true ∧
    trace1r.Len = 0 ∧
    alookup trace1r.lookup 0 = some 0 ∧
    (trace1r.ReadOp 0).1 = some (some 5) ∧
    (trace1r.remove 0).1 = true ∧
    (trace1r.remove 0).2.Len = 0 ∧
    (trace1r.remove 0).2.lookup = trace1r.lookup := by decide

/-! ### C1 counterexample: requested capacity 1 -/

/-- C1 fails at capacity `N = 1`: the engine actually gets the default
effective capacity 16, so inserting a second distinct key triggers no
eviction and `Len()` becomes 2, not 1. -/
theorem capacity_one_no_eviction :
    (((NewLRU 1 : LRU Nat Nat).set 0 10).2.2.set 1 11).2.2.Len = 2 ∧
    ((((NewLRU 1 : LRU Nat Nat).set 0 10).2.2.set 1 11).2.2.ReadOp 0).1 =
      some (some 10) ∧
    (((NewLRU 1 : LRU Nat Nat).set 0 10).2.2.set 1 11).2.2.capacity = 16 := by
  decide

/-! ### C4 counterexample: updating the tail key of a full engine evicts it -/

/-- C4 fails on the code: on the full capacity-2 engine with keys 0
(least recently touched) and 1, `Set 0 3` reports `isNew = false`
with no error, but the update branch's eviction trigger fires and
evicts key 0 itself; afterwards key 0 is gone (`Read` finds nothing)
and `Len()` dropped to 1. -/
theorem set_existing_evicts_updated_key :
    (traceFull2.set 0 3).1 = false ∧
    (traceFull2.set 0 3).2.1 = none ∧
    alookup traceFull2.lookup 0 = some 0 ∧
    alookup (traceFull2.set 0 3).2.2.lookup 0 = none ∧
    ((traceFull2.set 0 3).2.2.ReadOp 0).1 = some none ∧
    (traceFull2.set 0 3).2.2.Len = 1 := by decide

/-! ### C6 counterexample: Get on a stale key returns the value yet
cannot promote it -/

/-- C6 as stated fails on the code: after `NewLRU 3; Set 0 10;
Set 1 11; Remove 0`, key 0 is still present in the Lookup Table, and
`Get 0` increments the counters and returns value 10 with a nil error —
but the promised promotion to the head of the Ordered Index does not
happen: the element is detached, `MoveToFront` is a no-op, and the
Ordered Index stays `[1]`. -/
theorem get_no_promotion_after_remove :
    alookup trace2r.lookup 0 = some 0 ∧
    (trace2r.GetOp 0).map (fun r => (r.1, r.2.1, r.2.2.order)) =
      some (some 10, none, [1]) ∧
    0 ∉ [1] := by decide

end LRUCache

namespace LRUCache

variable {K V : Type} [DecidableEq K]

/-- Any number of `Read` calls leaves the engine state untouched:
the inner `read` performs no writes. -/
theorem readMany_id (l : LRU K V) (ks : List K) : readMany l ks = l := by
  induction ks with
  | nil => rfl
  | cons a t ih => exact ih

/-! ### C5 -/

/-- C5: `Read(k)` returns the entry's current value when `k` is in the
Lookup Table and an empty value when it is absent, and leaves the
entire engine state unchanged — no counter moves, no recency change,
no eviction — hence any number of `Read` calls never changes which key
is evicted next. -/
theorem read_contract (l : LRU K V) (k : K) (hr : Reachable l) :
    (l.ReadOp k).2 = l ∧
    (∀ ks : List K, readMany l ks = l) ∧
    (∀ ks : List K, (readMany l ks).evict = l.evict) ∧
    (alookup l.lookup k = none → (l.ReadOp k).1 = some none) ∧
    (∀ id, alookup l.lookup k = some id →
      ∃ e, heapFind l.heap id = Payload.item e ∧ (l.ReadOp k).1 = some e.value) := by
  have hw := wf_of_reachable hr
  refine ⟨rfl, readMany_id l, fun ks => by rw [readMany_id l ks], ?_, ?_⟩
  · intro hmiss
    have hread : l.read k = some none := by
      simp only [LRU.read, hmiss]
    show (match l.read k with
          | none => none
          | some none => some none
          | some (some e) => some e.value) = some none
    rw [hread]
  · intro id hid
    obtain ⟨e, he⟩ := hw.handles k id hid
    have hread : l.read k = some (some e) := by
      simp only [LRU.read, hid, he]
    refine ⟨e, he, ?_⟩
    show (match l.read k with
          | none => none
          | some none => some none
          | some (some e) => some e.value) = some e.value
    rw [hread]

theorem read_contract_witness :
    alookup trace1.lookup 0 = some 0 ∧
    (trace1.ReadOp 0).2 = trace1 ∧
    readMany trace1 [0, 7, 0] = trace1 ∧
    (∃ e, heapFind trace1.heap 0 = Payload.item e ∧
      (trace1.ReadOp 0).1 = some e.value) :=
  ⟨by decide,
   (read_contract trace1 0 ⟨3, trace1_reachable⟩).1,
   (read_contract trace1 0 ⟨3, trace1_reachable⟩).2.1 [0, 7, 0],
   (read_contract trace1 0 ⟨3, trace1_reachable⟩).2.2.2.2 0 (by decide)⟩

/-! ### C9 -/

/-- C9: on every reachable state, every Lookup Table handle resolves to
a valid `*LRUItem`, so the invalid-item-type fault is unreachable:
`set` never returns `ELRUINVALTYPE`, `get`'s unchecked extraction
never fails (the embedding would return `none` on a failed type
assertion), and neither does `read`'s. -/
theorem no_invalid_type_error (l : LRU K V) (hr : Reachable l) :
    (∀ k id, alookup l.lookup k = some id →
      ∃ e, heapFind l.heap id = Payload.item e) ∧
    (∀ (k : K) (v : V), (l.set k v).2.1 = none) ∧
    (∀ k : K, l.GetOp k ≠ none) ∧
    (∀ k : K, l.read k ≠ none) := by
  have hw := wf_of_reachable hr
  refine ⟨hw.handles, ?_, ?_, ?_⟩
  · intro k v
    obtain ⟨hp, ord, lk, cap, cnt, nid⟩ := l
    cases hprobe : alookup lk k with
    | none => simp only [LRU.set, hprobe]
    | some elem =>
      obtain ⟨e, he⟩ := hw.handles k elem hprobe
      simp only [LRU.set, hprobe, he]
  · intro k
    obtain ⟨hp, ord, lk, cap, cnt, nid⟩ := l
    cases hprobe : alookup lk k with
    | none =>
      simp only [LRU.GetOp, LRU.get, hprobe]
      simp
    | some elem =>
      obtain ⟨e, he⟩ := hw.handles k elem hprobe
      simp only [LRU.GetOp, LRU.get, hprobe, he]
      simp
  · intro k
    cases hprobe : alookup l.lookup k with
    | none =>
      simp only [LRU.read, hprobe]
      simp
    | some elem =>
      obtain ⟨e, he⟩ := hw.handles k elem hprobe
      simp only [LRU.read, hprobe, he]
      simp

theorem no_invalid_type_error_witness :
    Reachable trace2r ∧
    (trace2r.set 5 50).2.1 = none ∧
    (trace2r.set 0 99).2.1 = none ∧
    trace2r.GetOp 0 ≠ none :=
  ⟨⟨3, trace2r_reachable⟩,
   (no_invalid_type_error trace2r ⟨3, trace2r_reachable⟩).2.1 5 50,
   (no_invalid_type_error trace2r ⟨3, trace2r_reachable⟩).2.1 0 99,
   (no_invalid_type_error trace2r ⟨3, trace2r_reachable⟩).2.2.1 0⟩

/-! ### C10 -/

/-- C10: on every state reachable from `NewLRU c`, the Ordered Index
length never exceeds the internal capacity field plus one; hence for a
requested capacity `c ≥ 2` (where the field is `c - 1`), `Len()` never
exceeds `c`. -/
theorem len_bounded {c : Int} {l : LRU K V} (h : ReachableC c l) :
    (l.Len : Int) ≤ l.capacity + 1 ∧ (2 ≤ c → (l.Len : Int) ≤ c) := by
  obtain ⟨hw, hcap⟩ := wf_reachable h
  have hlb : (l.Len : Int) ≤ l.capacity + 1 := hw.lenBound
  refine ⟨hlb, fun hc => ?_⟩
  have h16 : (NewLRU c : LRU K V).capacity = c - 1 := by
    show (if c - 1 ≤ 0 then defaultCAPACITY else c - 1) = c - 1
    rw [if_neg (by omega)]
  rw [hcap, h16] at hlb
  omega

theorem len_bounded_witness :
    (2 : Int) ≤ 2 ∧
    (traceFull2.Len : Int) ≤ traceFull2.capacity + 1 ∧
    (traceFull2.Len : Int) ≤ 2 :=
  ⟨by decide, (len_bounded traceFull2_reachable).1,
   (len_bounded traceFull2_reachable).2 (by decide)⟩

end LRUCache

namespace LRUCache

variable {K V : Type} [DecidableEq K]

/-! ### C6 (amended) -/

/-- C6 (amended): `Get(k)` increments the global touch counter on every
call (hit or miss); on a miss it returns an empty value with a nil
error; on a hit it increments that entry's access counter and returns
its value with a nil error, and — provided the entry's element is
still in the Ordered Index (the handle was not left stale by
`Remove`) — promotes it to the head. -/
theorem get_contract (l : LRU K V) (k : K) (hr : Reachable l) :
    (alookup l.lookup k = none →
      l.GetOp k = some (none, none, { l with count := l.count + 1 })) ∧
    (∀ id, alookup l.lookup k = some id →
      ∃ e, heapFind l.heap id = Payload.item e ∧
        ∃ l1, l.GetOp k = some (e.value, none, l1) ∧
          l1.count = l.count + 1 ∧
          heapFind l1.heap id = Payload.item { e with count := e.count + 1 } ∧
          l1.order.length = l.order.length ∧
          l1.lookup = l.lookup ∧
          l1.capacity = l.capacity ∧
          (id ∈ l.order → l1.order.head? = some id)) := by
  have hw := wf_of_reachable hr
  obtain ⟨hp, ord, lk, cap, cnt, nid⟩ := l
  constructor
  · intro hmiss
    simp only [LRU.GetOp, LRU.get, hmiss]
  · intro id hid
    obtain ⟨e, he⟩ := hw.handles k id hid
    refine ⟨e, he,
      LRU.mk (heapUpdate hp id bumpF) (moveToFront ord id) lk cap (cnt + 1) nid,
      ?_, rfl, ?_, ?_, rfl, rfl, ?_⟩
    · simp only [LRU.GetOp, LRU.get, hid, he]
    · rw [heapFind_update_self bumpF_corrupt, he]
      rfl
    · exact length_moveToFront ord id
    · intro hin
      exact head_moveToFront hin

theorem get_contract_witness :
    alookup trace2.lookup 0 = some 0 ∧ 0 ∈ trace2.order ∧
    (∃ e, heapFind trace2.heap 0 = Payload.item e ∧
      ∃ l1, trace2.GetOp 0 = some (e.value, none, l1) ∧
        l1.count = trace2.count + 1 ∧
        heapFind l1.heap 0 = Payload.item { e with count := e.count + 1 } ∧
        l1.order.length = trace2.order.length ∧
        l1.lookup = trace2.lookup ∧
        l1.capacity = trace2.capacity ∧
        (0 ∈ trace2.order → l1.order.head? = some 0)) :=
  ⟨by decide, by decide,
   (get_contract trace2 0 ⟨3, trace2_reachable⟩).2 0 (by decide)⟩

/-! ### C4 (amended) -/

/-- After a touched entry sits at the head, the next eviction removes
some other element and keeps the touched key's handle intact, as long
as at least one other element remains. -/
theorem next_evict_keeps_head {m : LRU K V} (hw : WF m) {id : Nat} {k : K}
    (hhead : m.order.head? = some id) (hlk : alookup m.lookup k = some id)
    (hlen : 2 ≤ m.order.length) :
    id ∈ m.evict.order ∧ alookup m.evict.lookup k = some id := by
  obtain ⟨rest, hrest⟩ : ∃ rest, m.order = id :: rest := by
    cases horder : m.order with
    | nil =>
      rw [horder] at hhead
      exact absurd hhead (by simp)
    | cons a t =>
      rw [horder] at hhead
      simp only [List.head?_cons] at hhead
      exact ⟨t, by rw [Option.some.inj hhead]⟩
  have hne : m.order ≠ [] := by
    rw [hrest]
    simp
  obtain ⟨victim, kvic, evic, hlast, hfind, hkey, hlook, heq⟩ := evict_spec hw hne
  have hrestne : rest ≠ [] := by
    intro hc
    rw [hrest, hc] at hlen
    simp at hlen
  have hvrest : victim ∈ rest := by
    have h1 := hlast
    rw [hrest] at h1
    have h2 : (id :: rest).getLast? = rest.getLast? := by
      cases rest with
      | nil => exact absurd rfl hrestne
      | cons b t => exact List.getLast?_cons_cons
    rw [h2] at h1
    exact mem_of_getLast?_eq h1
  have hidrest : id ∉ rest := by
    have hnd := hw.nodup
    rw [hrest] at hnd
    exact (List.nodup_cons.1 hnd).1
  have hvid : victim ≠ id := fun hc => hidrest (hc ▸ hvrest)
  have hkne : kvic ≠ k := by
    intro hc
    rw [hc, hlk] at hlook
    exact hvid (Option.some.inj hlook).symm
  constructor
  · rw [heq]
    show id ∈ m.order.dropLast
    rw [hrest, List.dropLast_cons_of_ne_nil hrestne]
    exact List.mem_cons_self id _
  · rw [heq]
    show alookup (eraseKey m.lookup kvic) k = some id
    rw [alookup_eraseKey_ne (Ne.symm hkne)]
    exact hlk

/-- C4 (amended): on every reachable state, `Set(k, v)` on a key whose
element is in the Ordered Index returns `isNew = false` with no error,
increments the entry's access counter, replaces its value, keeps the
key's handle, and moves the element to the head — provided that, when
the pre-call entry count exceeds the capacity field, `k` is not the
tail (otherwise the update branch's eviction trigger evicts `k`
itself, see the counterexample).  Afterwards the next eviction does
not touch `k` while any other (hence less-recently-touched) entry
remains. -/
theorem set_existing_contract (l : LRU K V) (k : K) (v : V) (id : Nat)
    (hr : Reachable l)
    (hlk : alookup l.lookup k = some id)
    (hin : id ∈ l.order)
    (hsafe : (l.order.length : Int) > l.capacity → l.order.getLast? ≠ some id) :
    (l.set k v).1 = false ∧
    (l.set k v).2.1 = none ∧
    alookup (l.set k v).2.2.lookup k = some id ∧
    (l.set k v).2.2.order.head? = some id ∧
    (∃ e, heapFind l.heap id = Payload.item e ∧
      heapFind (l.set k v).2.2.heap id =
        Payload.item { e with count := e.count + 1, value := some v }) ∧
    (2 ≤ (l.set k v).2.2.order.length →
      id ∈ ((l.set k v).2.2.evict).order ∧
      alookup ((l.set k v).2.2.evict).lookup k = some id) := by
  have hw := wf_of_reachable hr
  obtain ⟨e, he⟩ := hw.handles k id hlk
  obtain ⟨hp, ord, lk, cap, cnt, nid⟩ := l
  have hw' := (wf_set hw k v).1
  by_cases hgt : ((ord.length : Int) > cap)
  · have hw0 : WF (LRU.mk hp ord lk cap (cnt + 1) nid) := wf_recount (cnt + 1) hw
    have hcap : (1 : Int) ≤ cap := hw.capPos
    have hne : ord ≠ [] := by
      intro hc
      rw [hc] at hgt
      simp at hgt
      omega
    obtain ⟨victim, kvic, evic, hlast, hfind, hkey, hlook, heq⟩ := evict_spec hw0 hne
    have hvid : victim ≠ id := by
      intro hc
      exact (hsafe hgt) (hc ▸ hlast)
    have hkvic : kvic ≠ k := by
      intro hc
      rw [hc] at hlook
      exact hvid (Option.some.inj (hlook.symm.trans hlk))
    have hset : (LRU.mk hp ord lk cap cnt nid).set k v = (false, none,
        LRU.mk (heapUpdate (heapUpdate hp victim clearF) id (touchF v))
          (moveToFront ord.dropLast id) (eraseKey lk kvic) cap (cnt + 1) nid) := by
      simp only [LRU.set, hlk, he, if_pos hgt, heq]
    have hiddl : id ∈ ord.dropLast := by
      have hsplit : ord.dropLast ++ [ord.getLast hne] = ord :=
        List.dropLast_append_getLast hne
      have hlastid : ord.getLast hne ≠ id := by
        intro hc
        apply hsafe hgt
        rw [List.getLast?_eq_getLast ord hne, hc]
      have hmem : id ∈ ord.dropLast ++ [ord.getLast hne] := by
        rw [hsplit]
        exact hin
      rcases List.mem_append.1 hmem with h | h
      · exact h
      · exact absurd (List.mem_singleton.1 h).symm hlastid
    rw [hset]
    have hlk2 : alookup (eraseKey lk kvic) k = some id := by
      rw [alookup_eraseKey_ne (Ne.symm hkvic)]
      exact hlk
    refine ⟨rfl, rfl, hlk2, head_moveToFront hiddl, ⟨e, he, ?_⟩, ?_⟩
    · show heapFind (heapUpdate (heapUpdate hp victim clearF) id (touchF v)) id = _
      rw [heapFind_update_self (touchF_corrupt v),
        heapFind_update_ne (Ne.symm hvid), he]
      rfl
    · intro hlen2
      have hw2 := hw'
      rw [hset] at hw2
      exact next_evict_keeps_head hw2 (head_moveToFront hiddl) hlk2 hlen2
  · have hset : (LRU.mk hp ord lk cap cnt nid).set k v = (false, none,
        LRU.mk (heapUpdate hp id (touchF v)) (moveToFront ord id) lk cap
          (cnt + 1) nid) := by
      simp only [LRU.set, hlk, he, if_neg hgt]
    rw [hset]
    refine ⟨rfl, rfl, hlk, head_moveToFront hin, ⟨e, he, ?_⟩, ?_⟩
    · rw [heapFind_update_self (touchF_corrupt v), he]
      rfl
    · intro hlen2
      have hw2 := hw'
      rw [hset] at hw2
      exact next_evict_keeps_head hw2 (head_moveToFront hin) hlk hlen2

theorem set_existing_contract_witness :
    alookup trace2.lookup 0 = some 0 ∧ 0 ∈ trace2.order ∧
    ((trace2.set 0 12).1 = false ∧
     (trace2.set 0 12).2.1 = none ∧
     alookup (trace2.set 0 12).2.2.lookup 0 = some 0 ∧
     (trace2.set 0 12).2.2.order.head? = some 0 ∧
     (∃ e, heapFind trace2.heap 0 = Payload.item e ∧
       heapFind (trace2.set 0 12).2.2.heap 0 =
         Payload.item { e with count := e.count + 1, value := some 12 }) ∧
     (2 ≤ (trace2.set 0 12).2.2.order.length →
       0 ∈ ((trace2.set 0 12).2.2.evict).order ∧
       alookup ((trace2.set 0 12).2.2.evict).lookup 0 = some 0)) :=
  ⟨by decide, by decide,
   set_existing_contract trace2 0 12 0 ⟨3, trace2_reachable⟩ (by decide)
     (by decide) (by decide)⟩

end LRUCache

namespace LRUCache

variable {K V : Type} [DecidableEq K]

/-! ### Closed form of a freshly filled engine (for C1) -/

/-- The element heap after pushing `kvs` in order into a fresh engine,
starting at id `n`: newest first, item `i` carries touch count `i+1`. -/
def stackedHeap : List (K × V) → Nat → List (Nat × Payload K V)
  | [], _ => []
  | kv :: rest, n =>
    stackedHeap rest (n + 1) ++ [(n, Payload.item ⟨some kv.1, some kv.2, n + 1⟩)]

/-- The lookup table after pushing `kvs` in order, starting at id `n`. -/
def stackedLookup : List (K × V) → Nat → List (K × Nat)
  | [], _ => []
  | kv :: rest, n => stackedLookup rest (n + 1) ++ [(kv.1, n)]

/-- `[n-1, ..., 1, 0]`: the recency order after pushing ids `0..n-1`. -/
def revRange : Nat → List Nat
  | 0 => []
  | n + 1 => n :: revRange n

/-- The full state after `Set`-ing `kvs` (distinct, fresh keys) into a
fresh engine with capacity field `capa`, when no eviction fired. -/
def mkFull (capa : Int) (kvs : List (K × V)) : LRU K V :=
  ⟨stackedHeap kvs 0, revRange kvs.length, stackedLookup kvs 0, capa,
   kvs.length, kvs.length⟩

theorem revRange_length (n : Nat) : (revRange n).length = n := by
  induction n with
  | zero => rfl
  | succ m ih => simp [revRange, ih]

theorem getLast?_cons_of_ne_nil {a : Nat} {l : List Nat} (h : l ≠ []) :
    (a :: l).getLast? = l.getLast? := by
  cases l with
  | nil => exact absurd rfl h
  | cons b t => exact List.getLast?_cons_cons

theorem revRange_getLast {n : Nat} (h : 0 < n) :
    (revRange n).getLast? = some 0 := by
  induction n with
  | zero => omega
  | succ m ih =>
    rcases Nat.eq_zero_or_pos m with h0 | hpos
    · subst h0
      rfl
    · show (m :: revRange m).getLast? = some 0
      have hne : revRange m ≠ [] := by
        intro hc
        have hlr := revRange_length m
        rw [hc] at hlr
        simp at hlr
        omega
      rw [getLast?_cons_of_ne_nil hne]
      exact ih hpos

theorem stackedHeap_snoc (kvs : List (K × V)) (d : K × V) (n : Nat) :
    stackedHeap (kvs ++ [d]) n =
      (n + kvs.length,
        Payload.item ⟨some d.1, some d.2, n + kvs.length + 1⟩) ::
        stackedHeap kvs n := by
  induction kvs generalizing n with
  | nil => simp [stackedHeap]
  | cons kv rest ih =>
    have harith : n + 1 + rest.length = n + (rest.length + 1) := by omega
    show stackedHeap (rest ++ [d]) (n + 1) ++
        [(n, Payload.item ⟨some kv.1, some kv.2, n + 1⟩)] = _
    rw [ih (n + 1)]
    simp only [stackedHeap, List.cons_append, List.length_cons, harith]

theorem stackedLookup_snoc (kvs : List (K × V)) (d : K × V) (n : Nat) :
    stackedLookup (kvs ++ [d]) n =
      (d.1, n + kvs.length) :: stackedLookup kvs n := by
  induction kvs generalizing n with
  | nil => simp [stackedLookup]
  | cons kv rest ih =>
    have harith : n + 1 + rest.length = n + (rest.length + 1) := by omega
    show stackedLookup (rest ++ [d]) (n + 1) ++ [(kv.1, n)] = _
    rw [ih (n + 1)]
    simp only [stackedLookup, List.cons_append, List.length_cons, harith]

theorem stackedLookup_keys_perm (kvs : List (K × V)) (n : Nat) :
    List.Perm ((stackedLookup kvs n).map Prod.fst) (kvs.map Prod.fst) := by
  induction kvs generalizing n with
  | nil => exact List.Perm.refl _
  | cons kv rest ih =>
    simp only [stackedLookup, List.map_append, List.map_cons, List.map_nil]
    refine List.Perm.trans List.perm_append_comm ?_
    exact (ih (n + 1)).cons kv.1

theorem stackedHeap_ids (kvs : List (K × V)) (n : Nat) :
    ∀ i ∈ (stackedHeap kvs n).map Prod.fst, n ≤ i := by
  induction kvs generalizing n with
  | nil =>
    intro i hi
    simp [stackedHeap] at hi
  | cons kv rest ih =>
    intro i hi
    simp only [stackedHeap, List.map_append, List.mem_append] at hi
    rcases hi with h | h
    · have := ih (n + 1) i h
      omega
    · simp at h
      omega

theorem stacked_read {kvs : List (K × V)} (hnd : (kvs.map Prod.fst).Nodup)
    {kv : K × V} (hkv : kv ∈ kvs) (n : Nat) :
    ∃ j, n ≤ j ∧ j < n + kvs.length ∧
      alookup (stackedLookup kvs n) kv.1 = some j ∧
      heapFind (stackedHeap kvs n) j =
        Payload.item ⟨some kv.1, some kv.2, j + 1⟩ := by
  induction kvs generalizing n with
  | nil => exact absurd hkv (List.not_mem_nil kv)
  | cons kv0 rest ih =>
    simp only [List.map_cons, List.nodup_cons] at hnd
    rcases List.mem_cons.1 hkv with rfl | hmem
    · refine ⟨n, le_refl n, by simp only [List.length_cons]; omega, ?_, ?_⟩
      · have hnone : alookup (stackedLookup rest (n + 1)) kv.1 = none := by
          rw [alookup_eq_none]
          intro hc
          exact hnd.1 ((stackedLookup_keys_perm rest (n + 1)).mem_iff.1 hc)
        show alookup (stackedLookup rest (n + 1) ++ [(kv.1, n)]) kv.1 = some n
        rw [alookup_append_right hnone]
        simp [alookup]
      · have hnotin : n ∉ (stackedHeap rest (n + 1)).map Prod.fst := by
          intro hc
          have := stackedHeap_ids rest (n + 1) n hc
          omega
        show heapFind (stackedHeap rest (n + 1) ++
          [(n, Payload.item ⟨some kv.1, some kv.2, n + 1⟩)]) n = _
        rw [heapFind_append_right hnotin]
        simp [heapFind]
    · obtain ⟨j, hj1, hj2, hj3, hj4⟩ := ih hnd.2 hmem (n + 1)
      refine ⟨j, by omega, by simp only [List.length_cons]; omega, ?_, ?_⟩
      · exact alookup_append_left hj3
      · exact heapFind_append_left hj4

end LRUCache

namespace LRUCache

variable {K V : Type} [DecidableEq K]

theorem insertAll_fresh (kvs : List (K × V)) (capa : Int)
    (hnd : (kvs.map Prod.fst).Nodup) (hlen : (kvs.length : Int) ≤ capa + 1) :
    insertAll kvs (LRU.mk [] [] [] capa 0 0) = mkFull capa kvs := by
  induction kvs using List.reverseRecOn with
  | nil => rfl
  | append_singleton kvs d ih =>
    have hkeys : (kvs.map Prod.fst).Nodup ∧ d.1 ∉ kvs.map Prod.fst := by
      rw [List.map_append] at hnd
      rcases List.nodup_append.1 hnd with ⟨h1, h2, h3⟩
      exact ⟨h1, fun hc => h3 hc (by simp)⟩
    have hlen' : (kvs.length : Int) ≤ capa + 1 := by
      simp only [List.length_append, List.length_singleton] at hlen
      push_cast at hlen
      omega
    have hstep : insertAll (kvs ++ [d]) (LRU.mk [] [] [] capa 0 0) =
        ((insertAll kvs (LRU.mk [] [] [] capa 0 0)).set d.1 d.2).2.2 := by
      unfold insertAll
      rw [List.foldl_append]
      rfl
    rw [hstep, ih hkeys.1 hlen']
    have hprobe : alookup (stackedLookup kvs 0) d.1 = none := by
      rw [alookup_eq_none]
      intro hc
      exact hkeys.2 ((stackedLookup_keys_perm kvs 0).mem_iff.1 hc)
    have hngt : ¬ (((revRange kvs.length).length : Int) > capa) := by
      rw [revRange_length]
      simp only [List.length_append, List.length_singleton] at hlen
      push_cast at hlen
      omega
    have hset : (mkFull capa kvs).set d.1 d.2 = (true, none, LRU.mk
        ((kvs.length, Payload.item ⟨some d.1, some d.2, kvs.length + 1⟩) ::
          stackedHeap kvs 0)
        (kvs.length :: revRange kvs.length)
        ((d.1, kvs.length) :: eraseKey (stackedLookup kvs 0) d.1)
        capa (kvs.length + 1) (kvs.length + 1)) := by
      unfold mkFull
      simp only [LRU.set, hprobe, if_neg hngt]
    rw [hset]
    unfold mkFull
    rw [eraseKey_of_not_mem
      (fun hc => hkeys.2 ((stackedLookup_keys_perm kvs 0).mem_iff.1 hc))]
    rw [stackedHeap_snoc, stackedLookup_snoc]
    simp only [List.length_append, List.length_singleton, Nat.zero_add]
    rfl

end LRUCache

namespace LRUCache

variable {K V : Type} [DecidableEq K]

/-- The value returned by the public `Read` on a hit. -/
theorem ReadOp_hit {l : LRU K V} {k : K} {e : Entry K V}
    (h : l.read k = some (some e)) : (l.ReadOp k).1 = some e.value := by
  show (match l.read k with
    | none => none
    | some none => some none
    | some (some e) => some e.value) = some e.value
  rw [h]

/-- The value returned by the public `Read` on a miss. -/
theorem ReadOp_miss {l : LRU K V} {k : K}
    (h : l.read k = some none) : (l.ReadOp k).1 = some none := by
  show (match l.read k with
    | none => none
    | some none => some none
    | some (some e) => some e.value) = some none
  rw [h]

/-- C1 (amended): the claim proved for requested capacity `N ≥ 2` (for
`N = 1` the engine silently gets the default capacity 16 instead, see
the counterexample).  Filling a fresh engine of capacity `N` with `N`
distinct keys gives `Len() = N` with all keys retrievable; one further
distinct insert triggers exactly one eviction, which removes exactly
the least-recently-touched key (the first inserted, never re-touched):
afterwards `Len()` is still `N`, the first key reads as absent, every
other key keeps its value, and the new key is present. -/
theorem fill_to_capacity_then_evict (kvs : List (K × V)) (k : K) (v : V)
    (h2 : 2 ≤ kvs.length)
    (hnd : (kvs.map Prod.fst).Nodup)
    (hk : k ∉ kvs.map Prod.fst) :
    (insertAll kvs (NewLRU (kvs.length : Int))).Len = kvs.length ∧
    (∀ kv ∈ kvs,
      ((insertAll kvs (NewLRU (kvs.length : Int))).ReadOp kv.1).1 =
        some (some kv.2)) ∧
    ((insertAll kvs (NewLRU (kvs.length : Int))).set k v).2.2.Len =
      kvs.length ∧
    (∀ kv0, kvs.head? = some kv0 →
      ((((insertAll kvs (NewLRU (kvs.length : Int))).set k v).2.2).ReadOp
        kv0.1).1 = some none) ∧
    (∀ kv ∈ kvs.tail,
      ((((insertAll kvs (NewLRU (kvs.length : Int))).set k v).2.2).ReadOp
        kv.1).1 = some (some kv.2)) ∧
    ((((insertAll kvs (NewLRU (kvs.length : Int))).set k v).2.2).ReadOp
      k).1 = some (some v) := by
  have hnew : (NewLRU (kvs.length : Int) : LRU K V) =
      LRU.mk [] [] [] ((kvs.length : Int) - 1) 0 0 := by
    show LRU.mk [] [] []
      (if (kvs.length : Int) - 1 ≤ 0 then defaultCAPACITY
       else (kvs.length : Int) - 1) 0 0 = _
    rw [if_neg (by omega)]
  rw [hnew, insertAll_fresh kvs ((kvs.length : Int) - 1) hnd (by omega)]
  obtain ⟨kv0, rest, rfl⟩ : ∃ kv0 rest, kvs = kv0 :: rest := by
    cases kvs with
    | nil => simp at h2
    | cons a t => exact ⟨a, t, rfl⟩
  have hlen_eq : (kv0 :: rest).length = rest.length + 1 := rfl
  have hndr : kv0.1 ∉ rest.map Prod.fst ∧ (rest.map Prod.fst).Nodup := by
    simpa using hnd
  have hk0 : ¬ (k = kv0.1) := by
    intro hc
    exact hk (by simp [hc])
  have hprobe2 : alookup (stackedLookup (kv0 :: rest) 0) k = none := by
    rw [alookup_eq_none]
    intro hc
    exact hk ((stackedLookup_keys_perm (kv0 :: rest) 0).mem_iff.1 hc)
  have hgt : (((revRange (kv0 :: rest).length).length : Int) >
      ((kv0 :: rest).length : Int) - 1) := by
    rw [revRange_length]
    omega
  have hlast : (revRange (kv0 :: rest).length).getLast? = some 0 :=
    revRange_getLast (by omega)
  have hfind0 : heapFind (stackedHeap (kv0 :: rest) 0) 0 =
      Payload.item ⟨some kv0.1, some kv0.2, 1⟩ := by
    show heapFind (stackedHeap rest 1 ++
      [(0, Payload.item ⟨some kv0.1, some kv0.2, 1⟩)]) 0 = _
    rw [heapFind_append_right
      (fun hc => absurd (stackedHeap_ids rest 1 0 hc) (by omega))]
    simp [heapFind]
  have herase2 : eraseKey (eraseKey (stackedLookup (kv0 :: rest) 0) kv0.1) k =
      eraseKey (stackedLookup (kv0 :: rest) 0) kv0.1 :=
    eraseKey_of_not_mem (fun hc => hk
      ((stackedLookup_keys_perm (kv0 :: rest) 0).mem_iff.1
        ((map_fst_eraseKey_sublist _ _).subset hc)))
  have hset2 : (mkFull (((kv0 :: rest).length : Int) - 1) (kv0 :: rest)).set
      k v = (true, none, LRU.mk
        (((kv0 :: rest).length,
          Payload.item ⟨some k, some v, (kv0 :: rest).length + 1⟩) ::
          heapUpdate (stackedHeap (kv0 :: rest) 0) 0 clearF)
        ((kv0 :: rest).length :: (revRange (kv0 :: rest).length).dropLast)
        ((k, (kv0 :: rest).length) ::
          eraseKey (stackedLookup (kv0 :: rest) 0) kv0.1)
        (((kv0 :: rest).length : Int) - 1)
        ((kv0 :: rest).length + 1) ((kv0 :: rest).length + 1)) := by
    simp only [mkFull, LRU.set, hprobe2, if_pos hgt, LRU.evict, hlast,
      hfind0, herase2]
  rw [hset2]
  refine ⟨revRange_length _, ?_, ?_, ?_, ?_, ?_⟩
  · -- reads on the filled state
    intro kv hkv
    obtain ⟨j, hj1, hj2, hj3, hj4⟩ := stacked_read hnd hkv 0
    have hread : (mkFull (((kv0 :: rest).length : Int) - 1)
        (kv0 :: rest)).read kv.1 =
        some (some ⟨some kv.1, some kv.2, j + 1⟩) := by
      simp only [mkFull, LRU.read, hj3, hj4]
    exact ReadOp_hit hread
  · -- Len after the extra insert
    show ((kv0 :: rest).length :: (revRange (kv0 :: rest).length).dropLast).length
      = (kv0 :: rest).length
    simp only [List.length_cons, List.length_dropLast, revRange_length]
    omega
  · -- the first-inserted key was evicted
    intro kv0' hh
    have heq0 : kv0 = kv0' := Option.some.inj (by simpa using hh)
    subst heq0
    have hlk0 : alookup ((k, (kv0 :: rest).length) ::
        eraseKey (stackedLookup (kv0 :: rest) 0) kv0.1) kv0.1 = none := by
      have hne : ¬ (kv0.1 = k) := fun hc => hk0 hc.symm
      simp only [alookup, if_neg hne]
      exact alookup_eraseKey_self
        ((stackedLookup_keys_perm (kv0 :: rest) 0).nodup_iff.2 hnd)
    have hread : (LRU.mk
        (((kv0 :: rest).length,
          Payload.item ⟨some k, some v, (kv0 :: rest).length + 1⟩) ::
          heapUpdate (stackedHeap (kv0 :: rest) 0) 0 clearF)
        ((kv0 :: rest).length :: (revRange (kv0 :: rest).length).dropLast)
        ((k, (kv0 :: rest).length) ::
          eraseKey (stackedLookup (kv0 :: rest) 0) kv0.1)
        (((kv0 :: rest).length : Int) - 1)
        ((kv0 :: rest).length + 1) ((kv0 :: rest).length + 1)).read kv0.1 =
        some none := by
      simp only [LRU.read, hlk0]
    exact ReadOp_miss hread
  · -- the other keys survived the eviction
    intro kv hmem
    have hk1 : ¬ (kv.1 = k) := by
      intro hc
      exact hk (hc ▸ List.mem_map_of_mem Prod.fst (List.mem_cons_of_mem kv0 hmem))
    have hk2 : kv.1 ≠ kv0.1 := by
      intro hc
      exact hndr.1 (hc ▸ List.mem_map_of_mem Prod.fst hmem)
    obtain ⟨j, hj1, hj2, hj3, hj4⟩ := stacked_read hndr.2 hmem 1
    have hlkj : alookup ((k, (kv0 :: rest).length) ::
        eraseKey (stackedLookup (kv0 :: rest) 0) kv0.1) kv.1 = some j := by
      simp only [alookup, if_neg hk1]
      rw [alookup_eraseKey_ne hk2]
      show alookup (stackedLookup rest 1 ++ [(kv0.1, 0)]) kv.1 = some j
      exact alookup_append_left hj3
    have hfj : heapFind (((kv0 :: rest).length,
        Payload.item ⟨some k, some v, (kv0 :: rest).length + 1⟩) ::
        heapUpdate (stackedHeap (kv0 :: rest) 0) 0 clearF) j =
        Payload.item ⟨some kv.1, some kv.2, j + 1⟩ := by
      have hjlen : ¬ (j = (kv0 :: rest).length) := by
        rw [hlen_eq]
        omega
      simp only [heapFind, if_neg hjlen]
      rw [heapFind_update_ne (by omega : j ≠ 0)]
      show heapFind (stackedHeap rest 1 ++
        [(0, Payload.item ⟨some kv0.1, some kv0.2, 1⟩)]) j = _
      exact heapFind_append_left hj4
    have hread : (LRU.mk
        (((kv0 :: rest).length,
          Payload.item ⟨some k, some v, (kv0 :: rest).length + 1⟩) ::
          heapUpdate (stackedHeap (kv0 :: rest) 0) 0 clearF)
        ((kv0 :: rest).length :: (revRange (kv0 :: rest).length).dropLast)
        ((k, (kv0 :: rest).length) ::
          eraseKey (stackedLookup (kv0 :: rest) 0) kv0.1)
        (((kv0 :: rest).length : Int) - 1)
        ((kv0 :: rest).length + 1) ((kv0 :: rest).length + 1)).read kv.1 =
        some (some ⟨some kv.1, some kv.2, j + 1⟩) := by
      simp only [LRU.read, hlkj, hfj]
    exact ReadOp_hit hread
  · -- the new key is present
    have hlkk : alookup ((k, (kv0 :: rest).length) ::
        eraseKey (stackedLookup (kv0 :: rest) 0) kv0.1) k =
        some ((kv0 :: rest).length) := by
      simp [alookup]
    have hfk : heapFind (((kv0 :: rest).length,
        Payload.item ⟨some k, some v, (kv0 :: rest).length + 1⟩) ::
        heapUpdate (stackedHeap (kv0 :: rest) 0) 0 clearF)
        ((kv0 :: rest).length) =
        Payload.item ⟨some k, some v, (kv0 :: rest).length + 1⟩ := by
      simp [heapFind]
    have hread : (LRU.mk
        (((kv0 :: rest).length,
          Payload.item ⟨some k, some v, (kv0 :: rest).length + 1⟩) ::
          heapUpdate (stackedHeap (kv0 :: rest) 0) 0 clearF)
        ((kv0 :: rest).length :: (revRange (kv0 :: rest).length).dropLast)
        ((k, (kv0 :: rest).length) ::
          eraseKey (stackedLookup (kv0 :: rest) 0) kv0.1)
        (((kv0 :: rest).length : Int) - 1)
        ((kv0 :: rest).length + 1) ((kv0 :: rest).length + 1)).read k =
        some (some ⟨some k, some v, (kv0 :: rest).length + 1⟩) := by
      simp only [LRU.read, hlkk, hfk]
    exact ReadOp_hit hread

end LRUCache

namespace LRUCache

theorem fill_to_capacity_then_evict_witness :
    2 ≤ [((0 : Nat), (10 : Nat)), (1, 11)].length ∧
    (insertAll [((0 : Nat), (10 : Nat)), (1, 11)]
      (NewLRU (([((0 : Nat), (10 : Nat)), (1, 11)].length : Int)))).Len = 2 ∧
    ((insertAll [((0 : Nat), (10 : Nat)), (1, 11)]
      (NewLRU (([((0 : Nat), (10 : Nat)), (1, 11)].length : Int)))).ReadOp
        0).1 = some (some 10) ∧
    ((insertAll [((0 : Nat), (10 : Nat)), (1, 11)]
      (NewLRU (([((0 : Nat), (10 : Nat)), (1, 11)].length : Int)))).ReadOp
        1).1 = some (some 11) ∧
    ((insertAll [((0 : Nat), (10 : Nat)), (1, 11)]
      (NewLRU (([((0 : Nat), (10 : Nat)), (1, 11)].length : Int)))).set 2
        12).2.2.Len = 2 ∧
    (((insertAll [((0 : Nat), (10 : Nat)), (1, 11)]
      (NewLRU (([((0 : Nat), (10 : Nat)), (1, 11)].length : Int)))).set 2
        12).2.2.ReadOp 0).1 = some none ∧
    (((insertAll [((0 : Nat), (10 : Nat)), (1, 11)]
      (NewLRU (([((0 : Nat), (10 : Nat)), (1, 11)].length : Int)))).set 2
        12).2.2.ReadOp 1).1 = some (some 11) ∧
    (((insertAll [((0 : Nat), (10 : Nat)), (1, 11)]
      (NewLRU (([((0 : Nat), (10 : Nat)), (1, 11)].length : Int)))).set 2
        12).2.2.ReadOp 2).1 = some (some 12) := by
  have h := fill_to_capacity_then_evict [((0 : Nat), (10 : Nat)), (1, 11)]
    2 12 (by decide) (by decide) (by decide)
  exact ⟨by decide, h.1, h.2.1 (0, 10) (by decide), h.2.1 (1, 11) (by decide),
    h.2.2.1, h.2.2.2.1 (0, 10) rfl, h.2.2.2.2.1 (1, 11) (by decide),
    h.2.2.2.2.2⟩

end LRUCache
